import Mathlib

/-!
Verification of the Separator Restoration Engine of anki2studysmarter.py.

The two core functions of the repository are embedded over lists of
characters:

* heuristic_insert_linebreaks (the Case-Transition Segmenter) scans the
  text left to right and inserts a line-break character before a maximal
  uppercase run exactly when the run does not start the string, is not
  preceded by a forbidden character, and has length at most 2.
* restore_separators normalizes existing line breaks to spaces, applies
  the segmenter, splits the result after every sentence-terminal
  punctuation mark followed by whitespace, strips the candidates, drops
  the empty ones and joins the survivors with the caller's separator.

The Python loop mutates an index and consumes each maximal uppercase run
with an inner loop; here this is rendered as a character-by-character
state machine whose state is the previously consumed character (the
value the Python code reads back as text at index i - 1).  A run is
"continued" exactly when the previous character is itself uppercase, and
the run length test reads the length of the upcoming uppercase block via
takeWhile, which is the same block the inner Python loop measures.
-/

/-- Models Python's str.isupper on a single character (ASCII range). -/
def isUp (c : Char) : Bool := c.isUpper

/-- Models Python's whitespace class (the regex class used by re.split
and the default str.strip set), restricted to ASCII. -/
def pyIsSpace (c : Char) : Bool :=
  c == ' ' || c == '\t' || c == '\n' || c == '\x0b' || c == '\x0c' || c == '\r'

/-- The sentence-terminal punctuation marks of the splitting pattern. -/
def isTerminal (c : Char) : Bool := c == '.' || c == '!' || c == '?'

/-- The forbidden-predecessor characters of the segmenter, from the
Python literal set of quote, brackets, slash, hyphen, comma, period,
colon, semicolon and space. -/
def forbidden : List Char := ['"', '(', '[', '{', '/', '-', ',', '.', ':', ';', ' ']

/-- One step of the Case-Transition Segmenter.  The first argument is
the previously consumed character (none at the start of the string).  An
uppercase character is copied verbatim when it continues a run (previous
character uppercase), starts the string, or follows a forbidden
character; otherwise it starts a run in breakable context and a break is
inserted before it exactly when the maximal uppercase block beginning
here has length at most 2.  Every other character is copied verbatim. -/
def hilGo (prev : Option Char) : List Char → List Char
  | [] => []
  | c :: rest =>
    if isUp c then
      match prev with
      | none => c :: hilGo (some c) rest
      | some p =>
        if isUp p then c :: hilGo (some c) rest
        else if forbidden.contains p then c :: hilGo (some c) rest
        else if (rest.takeWhile isUp).length + 1 ≤ 2 then
          '\n' :: c :: hilGo (some c) rest
        else c :: hilGo (some c) rest
    else c :: hilGo (some c) rest

/-- The Case-Transition Segmenter heuristic_insert_linebreaks. -/
def heuristic_insert_linebreaks (text : List Char) : List Char := hilGo none text

/-- Models re.sub of one-or-more line breaks by a single space: the flag
records whether the previous character was a line break, so each maximal
line-break run emits exactly one space. -/
def collapseNl (prevNl : Bool) : List Char → List Char
  | [] => []
  | c :: rest =>
    if c == '\n' then
      if prevNl then collapseNl true rest else ' ' :: collapseNl true rest
    else c :: collapseNl false rest

/-- The normalization pass of restore_separators. -/
def collapseNewlines (text : List Char) : List Char := collapseNl false text

/-- Models re.split at whitespace runs preceded by terminal punctuation.
The state is the previously scanned character together with a flag that
is true while inside the whitespace run of a split match (the matched
run is greedy, so subsequent whitespace characters are consumed too);
cur accumulates the current candidate in reverse. -/
def splitGo (prev : Option Char) (inGap : Bool) (cur : List Char) : List Char → List (List Char)
  | [] => [cur.reverse]
  | c :: rest =>
    if pyIsSpace c then
      if inGap then splitGo (some c) true cur rest
      else
        match prev with
        | some p =>
          if isTerminal p then cur.reverse :: splitGo (some c) true [] rest
          else splitGo (some c) false (c :: cur) rest
        | none => splitGo (some c) false (c :: cur) rest
    else splitGo (some c) false (c :: cur) rest

/-- The sentence-splitting pass of restore_separators. -/
def splitSentences (l : List Char) : List (List Char) := splitGo none false [] l

/-- Models Python's str.strip: remove leading and trailing whitespace. -/
def strip (l : List Char) : List Char :=
  (l.dropWhile pyIsSpace).rdropWhile pyIsSpace

/-- Models str.join: concatenate the pieces with the separator between
consecutive pieces. -/
def sepJoin (sep : List Char) : List (List Char) → List Char
  | [] => []
  | [s] => s
  | s :: ss => s ++ sep ++ sepJoin sep ss

/-- The stripped, nonempty sentence candidates computed by
restore_separators before joining. -/
def finalSentences (text : List Char) : List (List Char) :=
  (((splitSentences (heuristic_insert_linebreaks (collapseNewlines text))).map strip).filter
    (fun s => !s.isEmpty))

/-- The Separator Restoration Engine restore_separators. -/
def restore_separators (text sep : List Char) : List Char :=
  sepJoin sep (finalSentences text)

/-- The previously consumed character after additionally consuming a
list: the last element of the list, or the old state for the empty
list. -/
def afterState : Option Char → List Char → Option Char
  | prev, [] => prev
  | _, c :: l => afterState (some c) l

theorem afterState_append (prev : Option Char) (xs ys : List Char) :
    afterState prev (xs ++ ys) = afterState (afterState prev xs) ys := by
  induction xs generalizing prev with
  | nil => rfl
  | cons c l ih => simpa [afterState] using ih (some c)

theorem ws_not_up {c : Char} (h : pyIsSpace c = true) : isUp c = false := by
  simp only [pyIsSpace, Bool.or_eq_true, beq_iff_eq] at h
  rcases h with ((((rfl | rfl) | rfl) | rfl) | rfl) | rfl <;> rfl

theorem ws_not_terminal {c : Char} (h : pyIsSpace c = true) : isTerminal c = false := by
  simp only [pyIsSpace, Bool.or_eq_true, beq_iff_eq] at h
  rcases h with ((((rfl | rfl) | rfl) | rfl) | rfl) | rfl <;> rfl

theorem ws_not_alnum {c : Char} (h : pyIsSpace c = true) : c.isAlphanum = false := by
  simp only [pyIsSpace, Bool.or_eq_true, beq_iff_eq] at h
  rcases h with ((((rfl | rfl) | rfl) | rfl) | rfl) | rfl <;> rfl

theorem nl_not_up : isUp '\n' = false := rfl

theorem forbidden_not_up : ∀ c ∈ forbidden, isUp c = false := by decide

theorem length_dropWhile_le (p : Char → Bool) (l : List Char) :
    (l.dropWhile p).length ≤ l.length := by
  induction l with
  | nil => simp
  | cons a t ih =>
    by_cases h : p a = true
    · simpa [List.dropWhile_cons, h] using Nat.le_succ_of_le ih
    · simp [List.dropWhile_cons, h]

theorem head_dropWhile_false {p : Char → Bool} {l : List Char} {c : Char}
    (h : (l.dropWhile p).head? = some c) : p c = false := by
  induction l with
  | nil => simp at h
  | cons a t ih =>
    by_cases ha : p a = true
    · exact ih (by simpa [List.dropWhile_cons, ha] using h)
    · rw [List.dropWhile_cons] at h
      simp only [ha, Bool.false_eq_true, if_false, List.head?_cons, Option.some.injEq] at h
      subst h
      exact Bool.eq_false_iff.mpr (fun hc => ha hc)

theorem takeWhile_append_head_false {p : Char → Bool} (xs : List Char) {ys : List Char}
    (h : ∀ c, ys.head? = some c → p c = false) :
    (xs ++ ys).takeWhile p = xs.takeWhile p := by
  induction xs with
  | nil =>
    cases ys with
    | nil => rfl
    | cons b t =>
      have hb : p b = false := h b rfl
      simp [List.takeWhile_cons, hb]
  | cons a t ih =>
    by_cases ha : p a = true
    · simp [List.takeWhile_cons, ha, ih]
    · simp [List.takeWhile_cons, ha]

theorem takeWhile_all_append {p : Char → Bool} {xs ys : List Char}
    (hxs : ∀ c ∈ xs, p c = true) (h : ∀ c, ys.head? = some c → p c = false) :
    (xs ++ ys).takeWhile p = xs := by
  rw [takeWhile_append_head_false xs h]
  induction xs with
  | nil => rfl
  | cons a t ih =>
    have := hxs a (by simp)
    simp [List.takeWhile_cons, this, ih fun c hc => hxs c (by simp [hc])]

theorem takeWhile_append_of_getLast_false {p : Char → Bool} (ys : List Char) {d : Char}
    (hd : p d = false) :
    ∀ xs : List Char, xs.getLast? = some d → (xs ++ ys).takeWhile p = xs.takeWhile p := by
  intro xs
  induction xs with
  | nil => intro hlast; simp at hlast
  | cons a t ih =>
    intro hlast
    cases t with
    | nil =>
      simp only [List.getLast?_singleton, Option.some.injEq] at hlast
      subst hlast
      simp [List.takeWhile_cons, hd]
    | cons b u =>
      have hlast' : (b :: u).getLast? = some d := List.getLast?_cons_cons.symm.trans hlast
      by_cases ha : p a = true
      · rw [List.cons_append, List.takeWhile_cons, List.takeWhile_cons, ha, if_pos rfl,
          if_pos rfl]
        exact congrArg (a :: ·) (ih hlast')
      · simp [List.takeWhile_cons, ha]

theorem split_append_cons {xs ys pre post : List Char} {x : Char}
    (h : xs ++ ys = pre ++ x :: post) :
    (∃ mid, xs = pre ++ x :: mid ∧ post = mid ++ ys) ∨
      (∃ mid, pre = xs ++ mid ∧ ys = mid ++ x :: post) := by
  induction xs generalizing pre with
  | nil => exact Or.inr ⟨pre, rfl, h⟩
  | cons a t ih =>
    cases pre with
    | nil =>
      simp only [List.nil_append, List.cons_append, List.cons.injEq] at h
      exact Or.inl ⟨t, by simp [h.1], h.2.symm⟩
    | cons b q =>
      simp only [List.cons_append, List.cons.injEq] at h
      obtain ⟨rfl, h2⟩ := h
      rcases ih h2 with ⟨mid, h3, h4⟩ | ⟨mid, h3, h4⟩
      · exact Or.inl ⟨mid, by simp [h3], h4⟩
      · exact Or.inr ⟨mid, by simp [h3], h4⟩

theorem rdropWhile_append_rtake (p : Char → Bool) (l : List Char) :
    l.rdropWhile p ++ l.rtakeWhile p = l := by
  rw [List.rdropWhile, List.rtakeWhile, ← List.reverse_append,
    List.takeWhile_append_dropWhile, List.reverse_reverse]

theorem hilGo_copyRun {r : List Char} (b : List Char) {p : Char} (hp : isUp p = true)
    (hr : ∀ c ∈ r, isUp c = true) :
    hilGo (some p) (r ++ b) = r ++ hilGo (afterState (some p) r) b := by
  induction r generalizing p with
  | nil => rfl
  | cons c t ih =>
    have hc : isUp c = true := hr c (by simp)
    simp only [List.cons_append, hilGo, hc, if_true, hp, afterState]
    exact congrArg (c :: ·) (ih hc fun x hx => hr x (by simp [hx]))

theorem hilGo_append (ys : List Char) :
    ∀ (xs : List Char) (prev : Option Char),
      (∀ c, xs.getLast? = some c → isUp c = false) →
      hilGo prev (xs ++ ys) = hilGo prev xs ++ hilGo (afterState prev xs) ys := by
  intro xs
  induction xs with
  | nil => intro prev _; rfl
  | cons a t ih =>
    intro prev h
    have htail : ∀ c, t.getLast? = some c → isUp c = false := by
      intro c hc
      cases t with
      | nil => simp at hc
      | cons b u => exact h c (List.getLast?_cons_cons.trans hc)
    by_cases ha : isUp a = true
    · have ht : t ≠ [] := by
        rintro rfl
        have := h a (by simp)
        rw [ha] at this
        cases this
      have hlast : ∃ d, t.getLast? = some d ∧ isUp d = false := by
        cases hgl : t.getLast? with
        | none => exact absurd (List.getLast?_eq_none_iff.mp hgl) ht
        | some d => exact ⟨d, rfl, htail d hgl⟩
      obtain ⟨d, hgl, hdu⟩ := hlast
      have htw : (t ++ ys).takeWhile isUp = t.takeWhile isUp :=
        takeWhile_append_of_getLast_false ys hdu t hgl
      cases prev with
      | none =>
        simp only [List.cons_append, hilGo, ha, if_true, afterState]
        exact congrArg (a :: ·) (ih (some a) htail)
      | some p =>
        by_cases hpu : isUp p = true
        · simp only [List.cons_append, hilGo, ha, if_true, hpu, afterState]
          exact congrArg (a :: ·) (ih (some a) htail)
        · by_cases hpf : forbidden.contains p = true
          · simp only [List.cons_append, hilGo, ha, if_true, hpu, Bool.false_eq_true, if_false,
              hpf, afterState]
            exact congrArg (a :: ·) (ih (some a) htail)
          · by_cases hlen : (t.takeWhile isUp).length + 1 ≤ 2
            · simp only [List.cons_append, hilGo, ha, if_true, hpu, Bool.false_eq_true, if_false,
                hpf, List.append_eq, htw, hlen, if_true, afterState]
              exact congrArg (fun z => '\n' :: a :: z) (ih (some a) htail)
            · simp only [List.cons_append, hilGo, ha, if_true, hpu, Bool.false_eq_true, if_false,
                hpf, List.append_eq, htw, hlen, afterState]
              exact congrArg (a :: ·) (ih (some a) htail)
    · have ha' : isUp a = false := Bool.eq_false_iff.mpr ha
      simp only [List.cons_append, hilGo, ha', Bool.false_eq_true, if_false, afterState]
      exact congrArg (a :: ·) (ih (some a) htail)

theorem hilGo_run_start {r : List Char} (b : List Char) (hr : r ≠ [])
    (hall : ∀ c ∈ r, isUp c = true) :
    hilGo none (r ++ b) = r ++ hilGo (afterState none r) b := by
  cases r with
  | nil => exact absurd rfl hr
  | cons c t =>
    have hc : isUp c = true := hall c (by simp)
    simp only [List.cons_append, hilGo, hc, if_true, afterState]
    exact congrArg (c :: ·) (hilGo_copyRun b hc fun x hx => hall x (by simp [hx]))

theorem hilGo_run_forbidden {r : List Char} (b : List Char) {d : Char}
    (hd : forbidden.contains d = true) (hr : r ≠ []) (hall : ∀ c ∈ r, isUp c = true) :
    hilGo (some d) (r ++ b) = r ++ hilGo (afterState (some d) r) b := by
  cases r with
  | nil => exact absurd rfl hr
  | cons c t =>
    have hc : isUp c = true := hall c (by simp)
    have hdu : isUp d = false := forbidden_not_up d (by simpa using hd)
    simp only [List.cons_append, hilGo, hc, if_true, hdu, Bool.false_eq_true, if_false, hd,
      afterState]
    exact congrArg (c :: ·) (hilGo_copyRun b hc fun x hx => hall x (by simp [hx]))

theorem hilGo_run_breakable {r : List Char} {b : List Char} {d : Char}
    (hdu : isUp d = false) (hdf : d ∉ forbidden) (hr : r ≠ [])
    (hall : ∀ c ∈ r, isUp c = true) (hb : ∀ c, b.head? = some c → isUp c = false) :
    hilGo (some d) (r ++ b) =
      (if r.length ≤ 2 then '\n' :: r else r) ++ hilGo (afterState (some d) r) b := by
  cases r with
  | nil => exact absurd rfl hr
  | cons c t =>
    have hc : isUp c = true := hall c (by simp)
    have hdf' : forbidden.contains d = false := by
      rw [Bool.eq_false_iff]
      intro hcon
      exact hdf (by simpa using hcon)
    have htw : (t ++ b).takeWhile isUp = t :=
      takeWhile_all_append (fun x hx => hall x (by simp [hx])) hb
    have hcopy : hilGo (some c) (t ++ b) = t ++ hilGo (afterState (some c) t) b :=
      hilGo_copyRun b hc fun x hx => hall x (by simp [hx])
    by_cases hlen : t.length + 1 ≤ 2
    · simp only [List.cons_append, hilGo, hc, if_true, hdu, Bool.false_eq_true, if_false, hdf',
        List.append_eq, htw, hlen, if_true, hcopy, afterState, List.length_cons, if_pos hlen]
    · simp only [List.cons_append, hilGo, hc, if_true, hdu, Bool.false_eq_true, if_false, hdf',
        List.append_eq, htw, hlen, hcopy, afterState, List.length_cons, if_neg hlen]

theorem hilGo_cons (prev : Option Char) (c : Char) (rest : List Char) :
    hilGo prev (c :: rest) = c :: hilGo (some c) rest ∨
      (isUp c = true ∧ hilGo prev (c :: rest) = '\n' :: c :: hilGo (some c) rest) := by
  by_cases hc : isUp c = true
  · cases prev with
    | none => exact Or.inl (by simp only [hilGo, hc, if_true])
    | some p =>
      by_cases hp : isUp p = true
      · exact Or.inl (by simp only [hilGo, hc, if_true, hp])
      · have hp' : isUp p = false := Bool.eq_false_iff.mpr hp
        by_cases hpf : forbidden.contains p = true
        · exact Or.inl (by
            simp only [hilGo, hc, if_true, hp', Bool.false_eq_true, if_false, hpf])
        · have hpf' : forbidden.contains p = false := Bool.eq_false_iff.mpr hpf
          by_cases hlen : (rest.takeWhile isUp).length + 1 ≤ 2
          · exact Or.inr ⟨hc, by
              simp only [hilGo, hc, if_true, hp', Bool.false_eq_true, if_false, hpf', hlen]⟩
          · exact Or.inl (by
              simp only [hilGo, hc, if_true, hp', Bool.false_eq_true, if_false, hpf', hlen])
  · have hc' : isUp c = false := Bool.eq_false_iff.mpr hc
    exact Or.inl (by simp only [hilGo, hc', Bool.false_eq_true, if_false])

theorem hilGo_filter (q : Char → Bool) (hq : q '\n' = false) :
    ∀ (l : List Char) (prev : Option Char), (hilGo prev l).filter q = l.filter q := by
  intro l
  induction l with
  | nil => intro prev; rfl
  | cons c rest ih =>
    intro prev
    rcases hilGo_cons prev c rest with hshape | ⟨_, hshape⟩
    · rw [hshape, List.filter_cons, List.filter_cons, ih (some c)]
    · rw [hshape, List.filter_cons, hq, List.filter_cons, List.filter_cons, ih (some c)]
      simp

theorem hilGo_id_of_noUp : ∀ (l : List Char) (prev : Option Char),
    (∀ c ∈ l, isUp c = false) → hilGo prev l = l := by
  intro l
  induction l with
  | nil => intro prev _; rfl
  | cons c rest ih =>
    intro prev h
    have hc : isUp c = false := h c (by simp)
    simp only [hilGo, hc, Bool.false_eq_true, if_false]
    exact congrArg (c :: ·) (ih (some c) fun x hx => h x (by simp [hx]))

theorem hilGo_id_of_allUp : ∀ (l : List Char) (prev : Option Char),
    (∀ c ∈ l, isUp c = true) → (prev = none ∨ ∃ p, prev = some p ∧ isUp p = true) →
    hilGo prev l = l := by
  intro l
  induction l with
  | nil => intro prev _ _; rfl
  | cons c rest ih =>
    intro prev h hprev
    have hc : isUp c = true := h c (by simp)
    have ihc := ih (some c) (fun x hx => h x (by simp [hx])) (Or.inr ⟨c, rfl, hc⟩)
    rcases hprev with rfl | ⟨p, rfl, hp⟩
    · simp only [hilGo, hc, if_true]
      exact congrArg (c :: ·) ihc
    · simp only [hilGo, hc, if_true, hp]
      exact congrArg (c :: ·) ihc

theorem hil_head (t : List Char) :
    (heuristic_insert_linebreaks t).head? = t.head? := by
  cases t with
  | nil => rfl
  | cons c rest =>
    by_cases hc : isUp c = true
    · simp [heuristic_insert_linebreaks, hilGo, hc]
    · simp [heuristic_insert_linebreaks, hilGo, hc]

/-- Claim C2: in breakable context (run neither at position 0 nor after a
forbidden character, with the predecessor closing the previous run so the
uppercase run is maximal), the segmenter inserts a break immediately
before the run exactly when the run length is at most 2, and copies the
run verbatim either way; moreover segment of the string wordXy is
word-break-Xy and segment of worldWAR is worldWAR unchanged. -/
theorem C2_breakable_run_break_iff_short :
    (∀ (a : List Char) (d : Char) (r b : List Char),
        isUp d = false → d ∉ forbidden → r ≠ [] → (∀ c ∈ r, isUp c = true) →
        (∀ c, b.head? = some c → isUp c = false) →
        heuristic_insert_linebreaks (a ++ d :: (r ++ b)) =
          heuristic_insert_linebreaks (a ++ [d]) ++
            ((if r.length ≤ 2 then '\n' :: r else r) ++ hilGo (afterState (some d) r) b)) ∧
      heuristic_insert_linebreaks "wordXy".toList = "word\nXy".toList ∧
      heuristic_insert_linebreaks "worldWAR".toList = "worldWAR".toList := by
  refine ⟨?_, by decide, by decide⟩
  intro a d r b hdu hdf hr hall hb
  have h1 : a ++ d :: (r ++ b) = (a ++ [d]) ++ (r ++ b) := by simp
  have hxs : ∀ c, (a ++ [d]).getLast? = some c → isUp c = false := by
    intro c hc
    rw [List.getLast?_concat] at hc
    cases hc
    exact hdu
  have hst : afterState none (a ++ [d]) = some d := by
    rw [afterState_append]
    rfl
  unfold heuristic_insert_linebreaks
  rw [h1, hilGo_append (r ++ b) (a ++ [d]) none hxs, hst,
    hilGo_run_breakable hdu hdf hr hall hb]

/-- Witness for C2 at the concrete input wordXy decomposed around the
run X with predecessor d. -/
theorem C2_breakable_run_break_iff_short_witness :
    heuristic_insert_linebreaks ("wor".toList ++ 'd' :: (['X'] ++ "y".toList)) =
      heuristic_insert_linebreaks ("wor".toList ++ ['d']) ++
        ((if (['X'] : List Char).length ≤ 2 then '\n' :: ['X'] else ['X']) ++
          hilGo (afterState (some 'd') ['X']) "y".toList) :=
  C2_breakable_run_break_iff_short.1 "wor".toList 'd' ['X'] "y".toList (by decide) (by decide)
    (by decide) (by decide) (by decide)

/-- Claim C3: a maximal uppercase run at position 0, or one immediately
preceded by a forbidden character, is copied verbatim with no break
inserted before it; segment of the string open-paren A close-paren test
is unchanged; and the segmenter never changes the first character, so
its output never begins with an inserted break. -/
theorem C3_no_break_at_start_or_after_forbidden :
    (∀ (r b : List Char), r ≠ [] → (∀ c ∈ r, isUp c = true) →
        heuristic_insert_linebreaks (r ++ b) = r ++ hilGo (afterState none r) b) ∧
      (∀ (a : List Char) (d : Char) (r b : List Char),
        d ∈ forbidden → r ≠ [] → (∀ c ∈ r, isUp c = true) →
        heuristic_insert_linebreaks (a ++ d :: (r ++ b)) =
          heuristic_insert_linebreaks (a ++ [d]) ++ (r ++ hilGo (afterState (some d) r) b)) ∧
      heuristic_insert_linebreaks "(A) test".toList = "(A) test".toList ∧
      (∀ t : List Char, (heuristic_insert_linebreaks t).head? = t.head?) := by
  refine ⟨?_, ?_, by decide, hil_head⟩
  · intro r b hr hall
    exact hilGo_run_start b hr hall
  · intro a d r b hd hr hall
    have hdc : forbidden.contains d = true := by simpa using hd
    have hdu : isUp d = false := forbidden_not_up d hd
    have h1 : a ++ d :: (r ++ b) = (a ++ [d]) ++ (r ++ b) := by simp
    have hxs : ∀ c, (a ++ [d]).getLast? = some c → isUp c = false := by
      intro c hc
      rw [List.getLast?_concat] at hc
      cases hc
      exact hdu
    have hst : afterState none (a ++ [d]) = some d := by
      rw [afterState_append]
      rfl
    unfold heuristic_insert_linebreaks
    rw [h1, hilGo_append (r ++ b) (a ++ [d]) none hxs, hst,
      hilGo_run_forbidden b hdc hr hall]

/-- Witness for C3 at the concrete input open-paren A close-paren test,
decomposed around the run A with forbidden predecessor open-paren. -/
theorem C3_no_break_at_start_or_after_forbidden_witness :
    heuristic_insert_linebreaks (([] : List Char) ++ '(' :: (['A'] ++ ") test".toList)) =
      heuristic_insert_linebreaks (([] : List Char) ++ ['(']) ++
        (['A'] ++ hilGo (afterState (some '(') ['A']) ") test".toList) :=
  C3_no_break_at_start_or_after_forbidden.2.1 [] '(' ['A'] ") test".toList (by decide)
    (by decide) (by decide)

/-- Claim C6: the multiset of non-whitespace characters of the segmenter
output equals that of its input, since only line-break characters are
inserted. -/
theorem C6_segment_preserves_nonspace_multiset (s : List Char) :
    (↑((heuristic_insert_linebreaks s).filter (fun c => !pyIsSpace c)) : Multiset Char) =
      ↑(s.filter (fun c => !pyIsSpace c)) :=
  congrArg _ (hilGo_filter (fun c => !pyIsSpace c) rfl s none)

/-- Claim C7: on a string with no uppercase letters the segmenter is the
identity. -/
theorem C7_segment_identity_without_uppercase (s : List Char)
    (h : ∀ c ∈ s, isUp c = false) : heuristic_insert_linebreaks s = s :=
  hilGo_id_of_noUp s none h

/-- Witness for C7 at a concrete lowercase input. -/
theorem C7_segment_identity_without_uppercase_witness :
    heuristic_insert_linebreaks "hello, world. bye!".toList = "hello, world. bye!".toList :=
  C7_segment_identity_without_uppercase "hello, world. bye!".toList (by decide)

/-- Claim C8: the embedded segmenter and joiner are total Lean functions
over all strings by construction; restore_separators of the empty string
is the empty string for every separator, and an entirely uppercase
string is returned unchanged by the segmenter. -/
theorem C8_totality_and_empty :
    (∀ sep : List Char, restore_separators [] sep = []) ∧
      (∀ s : List Char, (∀ c ∈ s, isUp c = true) → heuristic_insert_linebreaks s = s) := by
  constructor
  · intro sep
    rfl
  · intro s h
    exact hilGo_id_of_allUp s none h (Or.inl rfl)

/-- Witness for C8: empty input with a newline separator, and a fully
uppercase concrete string. -/
theorem C8_totality_and_empty_witness :
    restore_separators [] "\n".toList = [] ∧
      heuristic_insert_linebreaks "ABC".toList = "ABC".toList :=
  ⟨C8_totality_and_empty.1 "\n".toList, C8_totality_and_empty.2 "ABC".toList (by decide)⟩

/-- Claim C9: for an input without line breaks, deleting every line
break from the segmenter output restores the input exactly: the
segmenter only interleaves inserted break characters into the unchanged
input. -/
theorem C9_delete_breaks_recovers_input (s : List Char) (h : '\n' ∉ s) :
    (heuristic_insert_linebreaks s).filter (fun c => !(c == '\n')) = s := by
  unfold heuristic_insert_linebreaks
  rw [hilGo_filter (fun c => !(c == '\n')) rfl s none]
  refine List.filter_eq_self.mpr fun a ha => ?_
  simp only [Bool.not_eq_eq_eq_not, Bool.not_true, beq_eq_false_iff_ne, ne_eq]
  rintro rfl
  exact h ha

/-- Witness for C9 at the concrete input wordXy. -/
theorem C9_delete_breaks_recovers_input_witness :
    (heuristic_insert_linebreaks "wordXy".toList).filter (fun c => !(c == '\n')) =
      "wordXy".toList :=
  C9_delete_breaks_recovers_input "wordXy".toList (by decide)

theorem head?_append_left {l₁ l₂ : List Char} (h : l₁ ≠ []) :
    (l₁ ++ l₂).head? = l₁.head? := by
  cases l₁ with
  | nil => exact absurd rfl h
  | cons a t => rfl

theorem getLast?_append_right {l₁ l₂ : List Char} {c : Char} (h : l₂.getLast? = some c) :
    (l₁ ++ l₂).getLast? = some c := by
  rw [← List.head?_reverse, List.reverse_append, head?_append_left, List.head?_reverse, h]
  intro h0
  rw [← List.length_eq_zero] at h0
  rw [List.length_reverse, List.length_eq_zero] at h0
  subst h0
  cases h

theorem strip_head_not_ws {l : List Char} {c : Char} (h : (strip l).head? = some c) :
    pyIsSpace c = false := by
  obtain ⟨t, ht⟩ := List.rdropWhile_prefix pyIsSpace (l.dropWhile pyIsSpace)
  have ht' : strip l ++ t = l.dropWhile pyIsSpace := ht
  have hne : strip l ≠ [] := by
    intro h0
    rw [h0] at h
    cases h
  have : (l.dropWhile pyIsSpace).head? = some c := by
    rw [← ht', head?_append_left hne]
    exact h
  exact head_dropWhile_false this

theorem strip_getLast_not_ws {l : List Char} {c : Char} (h : (strip l).getLast? = some c) :
    pyIsSpace c = false := by
  have hne : strip l ≠ [] := by
    intro h0
    rw [h0] at h
    cases h
  have hget := List.rdropWhile_last_not pyIsSpace (l.dropWhile pyIsSpace) hne
  have hget' : ¬pyIsSpace ((strip l).getLast hne) = true := hget
  rw [List.getLast?_eq_getLast _ hne] at h
  have hc : (strip l).getLast hne = c := by
    injection h
  rw [hc] at hget'
  exact Bool.eq_false_iff.mpr hget'

theorem strip_decomp (l : List Char) :
    ∃ w1 w2, l = w1 ++ strip l ++ w2 ∧ (∀ c ∈ w1, pyIsSpace c = true) ∧
      (∀ c ∈ w2, pyIsSpace c = true) := by
  refine ⟨l.takeWhile pyIsSpace, (l.dropWhile pyIsSpace).rtakeWhile pyIsSpace, ?_, ?_, ?_⟩
  · conv_lhs => rw [← List.takeWhile_append_dropWhile (p := pyIsSpace) (l := l)]
    rw [List.append_assoc]
    exact congrArg _ (rdropWhile_append_rtake pyIsSpace (l.dropWhile pyIsSpace)).symm
  · exact fun c hc => List.mem_takeWhile_imp hc
  · exact fun c hc => List.mem_rtakeWhile_imp hc

theorem strip_eq_nil_all_ws {l : List Char} (h : strip l = []) : ∀ c ∈ l, pyIsSpace c = true := by
  obtain ⟨w1, w2, hdec, h1, h2⟩ := strip_decomp l
  rw [h, List.append_nil] at hdec
  intro c hc
  rw [hdec] at hc
  rcases List.mem_append.mp hc with hc1 | hc2
  · exact h1 c hc1
  · exact h2 c hc2

theorem strip_idem (l : List Char) : strip (strip l) = strip l := by
  have hdw : (strip l).dropWhile pyIsSpace = strip l := by
    cases hs : strip l with
    | nil => rfl
    | cons a t =>
      have ha : pyIsSpace a = false := strip_head_not_ws (by rw [hs]; rfl)
      rw [List.dropWhile_cons, ha]
      simp
  unfold strip
  rw [show strip l = (l.dropWhile pyIsSpace).rdropWhile pyIsSpace from rfl] at hdw
  rw [hdw]
  exact List.rdropWhile_idempotent pyIsSpace (l.dropWhile pyIsSpace)

theorem mem_finalSentences {text : List Char} {s : List Char} (h : s ∈ finalSentences text) :
    s ≠ [] ∧ ∃ s0, s = strip s0 := by
  unfold finalSentences at h
  obtain ⟨hmem, hne⟩ := List.mem_filter.mp h
  obtain ⟨s0, _, hs0⟩ := List.mem_map.mp hmem
  constructor
  · intro h0
    rw [h0] at hne
    cases hne
  · exact ⟨s0, hs0.symm⟩

theorem sepJoin_head_not_ws (sep : List Char) :
    ∀ ss : List (List Char), ss ≠ [] →
      (∀ s ∈ ss, ∃ c, s.head? = some c ∧ pyIsSpace c = false) →
      ∃ c, (sepJoin sep ss).head? = some c ∧ pyIsSpace c = false := by
  intro ss
  match ss with
  | [] => intro h _; exact absurd rfl h
  | [s] =>
    intro _ h
    exact h s (by simp)
  | s :: s2 :: rest =>
    intro _ h
    obtain ⟨c, hc, hcw⟩ := h s (by simp)
    have hsne : s ≠ [] := by
      intro h0
      rw [h0] at hc
      cases hc
    refine ⟨c, ?_, hcw⟩
    show (s ++ sep ++ sepJoin sep (s2 :: rest)).head? = some c
    rw [List.append_assoc, head?_append_left hsne]
    exact hc

theorem sepJoin_getLast_not_ws (sep : List Char) :
    ∀ ss : List (List Char), ss ≠ [] →
      (∀ s ∈ ss, ∃ c, s.getLast? = some c ∧ pyIsSpace c = false) →
      ∃ c, (sepJoin sep ss).getLast? = some c ∧ pyIsSpace c = false := by
  intro ss
  induction ss with
  | nil => intro h _; exact absurd rfl h
  | cons s rest ih =>
    intro _ h
    cases rest with
    | nil => exact h s (by simp)
    | cons s2 rest2 =>
      obtain ⟨c, hc, hcw⟩ :=
        ih (by simp) (fun x hx => h x (by simp [List.mem_cons] at hx ⊢; tauto))
      refine ⟨c, ?_, hcw⟩
      show (s ++ sep ++ sepJoin sep (s2 :: rest2)).getLast? = some c
      exact getLast?_append_right hc

/-- Claim C10: the output of restore_separators is either empty or both
begins and ends with a non-whitespace character, since every joined
candidate is stripped and empty candidates are discarded. -/
theorem C10_output_trimmed (text sep : List Char) :
    restore_separators text sep = [] ∨
      ((∃ c, (restore_separators text sep).head? = some c ∧ pyIsSpace c = false) ∧
        (∃ c, (restore_separators text sep).getLast? = some c ∧ pyIsSpace c = false)) := by
  cases hss : finalSentences text with
  | nil =>
    left
    unfold restore_separators
    rw [hss]
    rfl
  | cons s rest =>
    right
    have hmem : ∀ x ∈ finalSentences text, x ≠ [] ∧ ∃ s0, x = strip s0 := by
      intro x hx
      exact mem_finalSentences hx
    have hhead : ∀ x ∈ finalSentences text, ∃ c, x.head? = some c ∧ pyIsSpace c = false := by
      intro x hx
      obtain ⟨hne, s0, hs0⟩ := hmem x hx
      cases hx2 : x with
      | nil => exact absurd hx2 hne
      | cons a t =>
        subst hx2
        refine ⟨a, rfl, ?_⟩
        apply strip_head_not_ws (l := s0)
        rw [← hs0]
        rfl
    have hlast : ∀ x ∈ finalSentences text, ∃ c, x.getLast? = some c ∧ pyIsSpace c = false := by
      intro x hx
      obtain ⟨hne, s0, hs0⟩ := hmem x hx
      cases hgl : x.getLast? with
      | none => exact absurd (List.getLast?_eq_none_iff.mp hgl) hne
      | some c =>
        refine ⟨c, rfl, ?_⟩
        apply strip_getLast_not_ws (l := s0)
        rw [← hs0]
        exact hgl
    constructor
    · have := sepJoin_head_not_ws sep (finalSentences text) (by rw [hss]; simp) hhead
      exact this
    · have := sepJoin_getLast_not_ws sep (finalSentences text) (by rw [hss]; simp) hlast
      exact this

/-- The subsequence of non-whitespace characters of a string, the
content that the data-model invariant says is preserved. -/
def nonWsOf (l : List Char) : List Char := l.filter (fun c => !pyIsSpace c)

theorem nonWsOf_append (a b : List Char) : nonWsOf (a ++ b) = nonWsOf a ++ nonWsOf b :=
  List.filter_append a b

theorem nonWsOf_nil_of_ws {w : List Char} (h : ∀ c ∈ w, pyIsSpace c = true) :
    nonWsOf w = [] := by
  refine List.filter_eq_nil_iff.mpr fun a ha => ?_
  simp [h a ha]

theorem nonWsOf_cons (c : Char) (l : List Char) :
    nonWsOf (c :: l) = (if pyIsSpace c = true then ([] : List Char) else [c]) ++ nonWsOf l := by
  unfold nonWsOf
  rw [List.filter_cons]
  by_cases h : pyIsSpace c = true
  · simp [h]
  · simp [Bool.eq_false_iff.mpr h]

theorem nonWsOf_collapse : ∀ (l : List Char) (b : Bool),
    nonWsOf (collapseNl b l) = nonWsOf l := by
  intro l
  induction l with
  | nil => intro b; rfl
  | cons c rest ih =>
    intro b
    by_cases hc : c = '\n'
    · subst hc
      cases b with
      | true =>
        have step : collapseNl true ('\n' :: rest) = collapseNl true rest := by
          simp [collapseNl]
        rw [step, ih true, nonWsOf_cons]
        simp [show pyIsSpace '\n' = true from rfl]
      | false =>
        have step : collapseNl false ('\n' :: rest) = ' ' :: collapseNl true rest := by
          simp [collapseNl]
        rw [step, nonWsOf_cons, nonWsOf_cons, ih true]
        simp [show pyIsSpace '\n' = true from rfl, show pyIsSpace ' ' = true from rfl]
    · have hc' : (c == '\n') = false := by simpa using hc
      have step : collapseNl b (c :: rest) = c :: collapseNl false rest := by
        simp [collapseNl, hc']
      rw [step, nonWsOf_cons, nonWsOf_cons, ih false]

theorem nonWsOf_hil (prev : Option Char) (l : List Char) :
    nonWsOf (hilGo prev l) = nonWsOf l :=
  hilGo_filter (fun c => !pyIsSpace c) rfl l prev

theorem nonWsOf_strip (l : List Char) : nonWsOf (strip l) = nonWsOf l := by
  obtain ⟨w1, w2, hdec, h1, h2⟩ := strip_decomp l
  conv_rhs => rw [hdec]
  rw [nonWsOf_append, nonWsOf_append, nonWsOf_nil_of_ws h1, nonWsOf_nil_of_ws h2]
  simp

theorem nonWsOf_flatten_split : ∀ (l : List Char) (prev : Option Char) (inGap : Bool)
    (cur : List Char),
    nonWsOf (splitGo prev inGap cur l).flatten = nonWsOf cur.reverse ++ nonWsOf l := by
  intro l
  induction l with
  | nil => intro prev inGap cur; simp [splitGo, nonWsOf]
  | cons c rest ih =>
    intro prev inGap cur
    by_cases hc : pyIsSpace c = true
    · cases inGap with
      | true =>
        rw [show splitGo prev true cur (c :: rest) = splitGo (some c) true cur rest from by
          simp [splitGo, hc]]
        rw [ih (some c) true cur]
        simp [nonWsOf, List.filter_cons, hc]
      | false =>
        cases prev with
        | none =>
          rw [show splitGo none false cur (c :: rest) =
              splitGo (some c) false (c :: cur) rest from by simp [splitGo, hc]]
          rw [ih (some c) false (c :: cur)]
          simp [nonWsOf, List.filter_cons, List.filter_append, hc]
        | some p =>
          by_cases hp : isTerminal p = true
          · rw [show splitGo (some p) false cur (c :: rest) =
                cur.reverse :: splitGo (some c) true [] rest from by simp [splitGo, hc, hp]]
            rw [List.flatten_cons, nonWsOf_append, ih (some c) true []]
            simp [nonWsOf, List.filter_cons, hc]
          · have hp' : isTerminal p = false := Bool.eq_false_iff.mpr hp
            rw [show splitGo (some p) false cur (c :: rest) =
                splitGo (some c) false (c :: cur) rest from by simp [splitGo, hc, hp']]
            rw [ih (some c) false (c :: cur)]
            simp [nonWsOf, List.filter_cons, List.filter_append, hc]
    · have hc' : pyIsSpace c = false := Bool.eq_false_iff.mpr hc
      rw [show splitGo prev inGap cur (c :: rest) =
          splitGo (some c) false (c :: cur) rest from by simp [splitGo, hc']]
      rw [ih (some c) false (c :: cur)]
      simp [nonWsOf, List.filter_cons, List.filter_append, hc']

theorem nonWsOf_flatten_filterstrip : ∀ ss : List (List Char),
    nonWsOf ((ss.map strip).filter (fun s => !s.isEmpty)).flatten = nonWsOf ss.flatten := by
  intro ss
  induction ss with
  | nil => rfl
  | cons s rest ih =>
    rw [List.map_cons, List.filter_cons]
    by_cases hs : (strip s).isEmpty = true
    · have hnil : strip s = [] := by
        cases hss : strip s with
        | nil => rfl
        | cons a t => rw [hss] at hs; cases hs
      have hws : nonWsOf s = [] := by
        rw [← nonWsOf_strip s, hnil]
        rfl
      simp only [hs, Bool.not_true, Bool.false_eq_true, if_false]
      rw [ih, List.flatten_cons, nonWsOf_append, hws]
      simp
    · simp only [Bool.eq_false_iff.mpr hs, Bool.not_false, if_true]
      rw [List.flatten_cons, List.flatten_cons, nonWsOf_append, nonWsOf_append, ih,
        nonWsOf_strip]

theorem nonWsOf_sepJoin {sep : List Char} (hsep : ∀ c ∈ sep, pyIsSpace c = true) :
    ∀ ss : List (List Char), nonWsOf (sepJoin sep ss) = nonWsOf ss.flatten := by
  intro ss
  induction ss with
  | nil => rfl
  | cons s rest ih =>
    cases rest with
    | nil => simp [sepJoin, nonWsOf]
    | cons s2 rest2 =>
      rw [show sepJoin sep (s :: s2 :: rest2) = s ++ sep ++ sepJoin sep (s2 :: rest2) from rfl,
        List.flatten_cons, nonWsOf_append, nonWsOf_append, nonWsOf_append,
        nonWsOf_nil_of_ws hsep, ih]
      simp

theorem filter_alnum_via_nonWs (l : List Char) :
    l.filter (fun c => c.isAlphanum) = (nonWsOf l).filter (fun c => c.isAlphanum) := by
  unfold nonWsOf
  rw [List.filter_filter]
  refine (List.filter_congr fun a _ => ?_).symm
  by_cases h : a.isAlphanum = true
  · have hw : pyIsSpace a = false := by
      cases hws : pyIsSpace a with
      | false => rfl
      | true => rw [ws_not_alnum hws] at h; cases h
    simp [h, hw]
  · simp [Bool.eq_false_iff.mpr h]

/-- Counterexample to claim C4 as stated: with the non-whitespace
separator semicolon, joining inserts a semicolon that is not part of the
input, so the non-whitespace content is not preserved for every
separator. -/
theorem C4_counterexample :
    nonWsOf (restore_separators "a. b".toList ";".toList) ≠ nonWsOf "a. b".toList := by
  decide

/-- Claim C4 as amended: for every separator consisting only of
whitespace characters (such as the newline separator the program
actually passes), restore_separators preserves the sequence of
non-whitespace characters of the input exactly, and in particular no
alphanumeric character is dropped, altered or reordered; only
whitespace and break characters are inserted, removed or repositioned.
For separators containing non-whitespace characters the joining step
inserts those characters, so the restriction is necessary. -/
theorem C4_nonspace_content_preserved (text sep : List Char)
    (hsep : ∀ c ∈ sep, pyIsSpace c = true) :
    nonWsOf (restore_separators text sep) = nonWsOf text ∧
      (restore_separators text sep).filter (fun c => c.isAlphanum) =
        text.filter (fun c => c.isAlphanum) := by
  have h1 : nonWsOf (restore_separators text sep) = nonWsOf text := by
    unfold restore_separators finalSentences splitSentences heuristic_insert_linebreaks
      collapseNewlines
    rw [nonWsOf_sepJoin hsep, nonWsOf_flatten_filterstrip, nonWsOf_flatten_split,
      nonWsOf_hil, nonWsOf_collapse]
    rfl
  refine ⟨h1, ?_⟩
  rw [filter_alnum_via_nonWs, h1, ← filter_alnum_via_nonWs]

/-- Witness for the amended C4 at a concrete input with the newline
separator. -/
theorem C4_nonspace_content_preserved_witness :
    nonWsOf (restore_separators "Foo. Bar! Baz?".toList "\n".toList) =
        nonWsOf "Foo. Bar! Baz?".toList ∧
      (restore_separators "Foo. Bar! Baz?".toList "\n".toList).filter
          (fun c => c.isAlphanum) =
        "Foo. Bar! Baz?".toList.filter (fun c => c.isAlphanum) :=
  C4_nonspace_content_preserved "Foo. Bar! Baz?".toList "\n".toList (by decide)

/-- Every line-break character of the string is immediately followed by
an uppercase character.  This is the shape of every break the segmenter
inserts, and it is preserved by the later pipeline stages. -/
def NlUp (s : List Char) : Prop :=
  ∀ pre post, s = pre ++ '\n' :: post → ∃ c cs, post = c :: cs ∧ isUp c = true

theorem NlUp_nil : NlUp [] := by
  intro pre post h
  cases pre <;> simp at h

theorem NlUp_cons {c : Char} {s : List Char} (hc : c ≠ '\n') (h : NlUp s) : NlUp (c :: s) := by
  intro pre post heq
  cases pre with
  | nil =>
    simp only [List.nil_append, List.cons.injEq] at heq
    exact absurd heq.1 hc
  | cons b pre2 =>
    simp only [List.cons_append, List.cons.injEq] at heq
    exact h pre2 post heq.2

theorem NlUp_nl_cons {c : Char} {s : List Char} (hc : isUp c = true) (h : NlUp (c :: s)) :
    NlUp ('\n' :: c :: s) := by
  intro pre post heq
  cases pre with
  | nil =>
    simp only [List.nil_append, List.cons.injEq] at heq
    exact ⟨c, s, heq.2.symm, hc⟩
  | cons b pre2 =>
    simp only [List.cons_append, List.cons.injEq] at heq
    exact h pre2 post heq.2

theorem NlUp_suffix {xs ys : List Char} (h : NlUp (xs ++ ys)) : NlUp ys := by
  intro pre post heq
  exact h (xs ++ pre) post (by rw [heq]; simp)

theorem NlUp_prefix {xs ys : List Char} (h : NlUp (xs ++ ys))
    (hys : ∀ c, ys.head? = some c → isUp c = false) : NlUp xs := by
  intro pre post heq
  obtain ⟨c, cs, hpc, hcu⟩ := h pre (post ++ ys) (by rw [heq]; simp)
  cases post with
  | nil =>
    simp only [List.nil_append] at hpc
    have : isUp c = false := hys c (by rw [hpc]; rfl)
    rw [hcu] at this
    cases this
  | cons a post2 =>
    simp only [List.cons_append, List.cons.injEq] at hpc
    exact ⟨a, post2, rfl, hpc.1 ▸ hcu⟩

theorem NlUp_middle_ws {xs ys : List Char} {c : Char} (h : NlUp (xs ++ c :: ys))
    (hc : pyIsSpace c = true) : NlUp (xs ++ ys) := by
  intro pre post heq
  rcases split_append_cons heq with ⟨mid, hxs, hpost⟩ | ⟨mid, hpre, hys⟩
  · obtain ⟨c2, cs2, hmc, hcu⟩ := h pre (mid ++ c :: ys) (by rw [hxs]; simp)
    cases mid with
    | nil =>
      simp only [List.nil_append, List.cons.injEq] at hmc
      rw [← hmc.1, ws_not_up hc] at hcu
      cases hcu
    | cons a mid2 =>
      simp only [List.cons_append, List.cons.injEq] at hmc
      exact ⟨a, mid2 ++ ys, by rw [hpost]; rfl, hmc.1 ▸ hcu⟩
  · obtain ⟨c2, cs2, hpc, hcu⟩ := h (xs ++ c :: mid) post (by rw [hys]; simp)
    exact ⟨c2, cs2, hpc, hcu⟩

theorem noNl_collapse : ∀ (l : List Char) (b : Bool), '\n' ∉ collapseNl b l := by
  intro l
  induction l with
  | nil => intro b; simp [collapseNl]
  | cons c rest ih =>
    intro b
    by_cases hc : c = '\n'
    · subst hc
      cases b with
      | true =>
        have step : collapseNl true ('\n' :: rest) = collapseNl true rest := by
          simp [collapseNl]
        rw [step]
        exact ih true
      | false =>
        have step : collapseNl false ('\n' :: rest) = ' ' :: collapseNl true rest := by
          simp [collapseNl]
        rw [step]
        intro hmem
        rcases List.mem_cons.mp hmem with h0 | h0
        · cases h0
        · exact ih true h0
    · have hc' : (c == '\n') = false := by simpa using hc
      have step : collapseNl b (c :: rest) = c :: collapseNl false rest := by
        simp [collapseNl, hc']
      rw [step]
      intro hmem
      rcases List.mem_cons.mp hmem with h0 | h0
      · exact hc h0.symm
      · exact ih false h0

theorem nlUp_hilGo : ∀ (l : List Char) (prev : Option Char), '\n' ∉ l →
    NlUp (hilGo prev l) := by
  intro l
  induction l with
  | nil => intro prev _; exact NlUp_nil
  | cons c rest ih =>
    intro prev hmem
    have hc : c ≠ '\n' := fun h0 => hmem (by rw [h0]; simp)
    have hrest : '\n' ∉ rest := fun h0 => hmem (by simp [h0])
    rcases hilGo_cons prev c rest with hshape | ⟨hcu, hshape⟩
    · rw [hshape]
      exact NlUp_cons hc (ih (some c) hrest)
    · rw [hshape]
      exact NlUp_nl_cons hcu (NlUp_cons hc (ih (some c) hrest))

theorem nlUp_splitGo : ∀ (l : List Char) (prev : Option Char) (inGap : Bool) (cur : List Char),
    NlUp (cur.reverse ++ l) → ∀ p ∈ splitGo prev inGap cur l, NlUp p := by
  intro l
  induction l with
  | nil =>
    intro prev inGap cur h p hp
    simp only [splitGo, List.mem_singleton] at hp
    subst hp
    rw [List.append_nil] at h
    exact h
  | cons c rest ih =>
    intro prev inGap cur h p hp
    have hassoc : cur.reverse ++ c :: rest = (c :: cur).reverse ++ rest := by
      simp
    by_cases hc : pyIsSpace c = true
    · cases inGap with
      | true =>
        rw [show splitGo prev true cur (c :: rest) = splitGo (some c) true cur rest from by
          simp [splitGo, hc]] at hp
        exact ih (some c) true cur (NlUp_middle_ws h hc) p hp
      | false =>
        cases prev with
        | none =>
          rw [show splitGo none false cur (c :: rest) =
              splitGo (some c) false (c :: cur) rest from by simp [splitGo, hc]] at hp
          exact ih (some c) false (c :: cur) (hassoc ▸ h) p hp
        | some q =>
          by_cases hq : isTerminal q = true
          · rw [show splitGo (some q) false cur (c :: rest) =
                cur.reverse :: splitGo (some c) true [] rest from by
              simp [splitGo, hc, hq]] at hp
            rcases List.mem_cons.mp hp with rfl | hp2
            · exact NlUp_prefix h fun x hx => by
                cases hx2 : (c :: rest).head? with
                | none => cases hx2
                | some y =>
                  rw [hx2] at hx
                  injection hx with hxy
                  injection hx2 with hy2
                  rw [← hxy, ← hy2]
                  exact ws_not_up hc
            · have hsuf : NlUp rest := by
                have h2 : NlUp ((cur.reverse ++ [c]) ++ rest) := by
                  rw [show (cur.reverse ++ [c]) ++ rest = cur.reverse ++ c :: rest from by simp]
                  exact h
                exact NlUp_suffix h2
              have : NlUp (([] : List Char).reverse ++ rest) := by simpa using hsuf
              exact ih (some c) true [] this p hp2
          · have hq' : isTerminal q = false := Bool.eq_false_iff.mpr hq
            rw [show splitGo (some q) false cur (c :: rest) =
                splitGo (some c) false (c :: cur) rest from by simp [splitGo, hc, hq']] at hp
            exact ih (some c) false (c :: cur) (hassoc ▸ h) p hp
    · have hc' : pyIsSpace c = false := Bool.eq_false_iff.mpr hc
      rw [show splitGo prev inGap cur (c :: rest) =
          splitGo (some c) false (c :: cur) rest from by simp [splitGo, hc']] at hp
      exact ih (some c) false (c :: cur) (hassoc ▸ h) p hp

theorem nlUp_strip {s : List Char} (h : NlUp s) : NlUp (strip s) := by
  have h1 : NlUp (s.dropWhile pyIsSpace) := by
    have hdec : s = s.takeWhile pyIsSpace ++ s.dropWhile pyIsSpace :=
      (List.takeWhile_append_dropWhile pyIsSpace s).symm
    exact NlUp_suffix (hdec ▸ h)
  have hdec2 : s.dropWhile pyIsSpace = strip s ++ (s.dropWhile pyIsSpace).rtakeWhile pyIsSpace :=
    (rdropWhile_append_rtake pyIsSpace (s.dropWhile pyIsSpace)).symm
  refine NlUp_prefix (hdec2 ▸ h1) fun c hc => ?_
  have hcmem : c ∈ (s.dropWhile pyIsSpace).rtakeWhile pyIsSpace := by
    cases hw : (s.dropWhile pyIsSpace).rtakeWhile pyIsSpace with
    | nil => rw [hw] at hc; cases hc
    | cons a t =>
      rw [hw] at hc
      injection hc with hac
      rw [← hac]
      simp
  exact ws_not_up (List.mem_rtakeWhile_imp hcmem)

theorem mem_finalSentences_strip {text s : List Char} (h : s ∈ finalSentences text) :
    ∃ s0, s0 ∈ splitSentences (heuristic_insert_linebreaks (collapseNewlines text)) ∧
      s = strip s0 := by
  unfold finalSentences at h
  obtain ⟨hmem, _⟩ := List.mem_filter.mp h
  obtain ⟨s0, hs0, hs0e⟩ := List.mem_map.mp hmem
  exact ⟨s0, hs0, hs0e.symm⟩

theorem nlUp_sepJoin (sep : List Char) : ∀ (ss : List (List Char)) (pre post : List Char),
    (∀ s ∈ ss, NlUp s) → sepJoin sep ss = pre ++ '\n' :: post →
    (∃ c cs, post = c :: cs ∧ isUp c = true) ∨
      (∃ pre2 a b2 post2, sep = a ++ '\n' :: b2 ∧ pre = pre2 ++ a ∧ post = b2 ++ post2) := by
  intro ss
  induction ss with
  | nil =>
    intro pre post _ heq
    exact absurd heq.symm (by cases pre <;> simp [sepJoin])
  | cons s rest ih =>
    intro pre post hall heq
    cases rest with
    | nil =>
      obtain ⟨c, cs, hpc, hcu⟩ := hall s (by simp) pre post heq
      exact Or.inl ⟨c, cs, hpc, hcu⟩
    | cons s2 rest2 =>
      have heq2 : s ++ (sep ++ sepJoin sep (s2 :: rest2)) = pre ++ '\n' :: post := by
        rw [← List.append_assoc]
        exact heq
      rcases split_append_cons heq2 with ⟨mid, hs, hpost⟩ | ⟨mid, hpre, hrest⟩
      · obtain ⟨c, cs, hmc, hcu⟩ := hall s (by simp) pre mid hs
        refine Or.inl ⟨c, cs ++ (sep ++ sepJoin sep (s2 :: rest2)), ?_, hcu⟩
        rw [hpost, hmc]
        rfl
      · rcases split_append_cons hrest with ⟨mid2, hsep, hpost2⟩ | ⟨mid2, hmid, hrj⟩
        · exact Or.inr ⟨s, mid, mid2, sepJoin sep (s2 :: rest2), hsep, hpre, hpost2⟩
        · rcases ih mid2 post (fun x hx => hall x (by simp [hx])) hrj with
            hleft | ⟨pre2, a, b2, post2, h1, h2, h3⟩
          · exact Or.inl hleft
          · refine Or.inr ⟨s ++ sep ++ pre2, a, b2, post2, h1, ?_, h3⟩
            rw [hpre, hmid, h2]
            simp [List.append_assoc]

/-- Counterexample to claim C1 as stated: on the input aXy with the
separator comma, the output is a-break-Xy, which contains a raw line
break although the separator contains none, so the break lies inside no
occurrence of the separator.  The break was inserted by the segmenter
before the short uppercase run X and survives because no terminal
punctuation follows. -/
theorem C1_counterexample :
    restore_separators "aXy".toList ",".toList = "a\nXy".toList ∧
      '\n' ∈ restore_separators "aXy".toList ",".toList ∧ '\n' ∉ ",".toList := by
  decide

/-- Claim C1 as amended: every raw line break of the output either lies
inside an occurrence of the chosen separator or is a break inserted by
the segmenter, in which case it is immediately followed by an uppercase
letter.  In particular no line break of the input survives (they are
normalized to spaces), but inserted breaks may remain embedded. -/
theorem C1_output_breaks_from_separator_or_segmenter
    (text sep pre post : List Char)
    (h : restore_separators text sep = pre ++ '\n' :: post) :
    (∃ c cs, post = c :: cs ∧ isUp c = true) ∨
      (∃ pre2 a b2 post2, sep = a ++ '\n' :: b2 ∧ pre = pre2 ++ a ∧ post = b2 ++ post2) := by
  unfold restore_separators at h
  refine nlUp_sepJoin sep (finalSentences text) pre post ?_ h
  intro s hs
  obtain ⟨s0, hs0mem, rfl⟩ := mem_finalSentences_strip hs
  apply nlUp_strip
  refine nlUp_splitGo _ none false [] ?_ s0 hs0mem
  have hnl : '\n' ∉ collapseNewlines text := noNl_collapse text false
  simpa using nlUp_hilGo (collapseNewlines text) none hnl

/-- Witness for the amended C1: on the input aXy with separator comma
the output decomposes around its line break, and the theorem yields the
left disjunct, an uppercase letter right after the break. -/
theorem C1_output_breaks_from_separator_or_segmenter_witness :
    (∃ c cs, "Xy".toList = c :: cs ∧ isUp c = true) ∨
      (∃ pre2 a b2 post2, ",".toList = a ++ '\n' :: b2 ∧ "a".toList = pre2 ++ a ∧
        "Xy".toList = b2 ++ post2) :=
  C1_output_breaks_from_separator_or_segmenter "aXy".toList ",".toList "a".toList "Xy".toList
    (by decide)

/-- No split point between two adjacent characters: the first is not a
terminal punctuation mark followed by a whitespace character.  A
candidate sentence with this property chained through it contains no
position at which the splitting pattern would have matched. -/
def SplitOk (a b : Char) : Prop := isTerminal a = true → pyIsSpace b = false

/-- The list of candidate sentences results from the text by cutting it
exactly at nonempty whitespace gaps, each immediately preceded by a
sentence-terminal punctuation mark that stays attached as the last
character of the preceding candidate. -/
inductive Glued : List Char → List (List Char) → Prop
  | single (p : List Char) : Glued p [p]
  | more (p g l2 : List Char) (ps : List (List Char)) (hg : g ≠ [])
      (hgw : ∀ c ∈ g, pyIsSpace c = true)
      (hterm : ∃ q t, p = q ++ [t] ∧ isTerminal t = true)
      (hglue : Glued l2 ps) : Glued (p ++ g ++ l2) (p :: ps)

theorem splitGo_prev_irrelevant (l : List Char) (p q : Option Char)
    (h : ∀ c, l.head? = some c → pyIsSpace c = false) :
    splitGo p false [] l = splitGo q false [] l := by
  cases l with
  | nil => rfl
  | cons c rest =>
    have hc : pyIsSpace c = false := h c rfl
    have h1 : splitGo p false [] (c :: rest) = splitGo (some c) false [c] rest := by
      cases p with
      | none => simp [splitGo, hc]
      | some x => simp [splitGo, hc]
    have h2 : splitGo q false [] (c :: rest) = splitGo (some c) false [c] rest := by
      cases q with
      | none => simp [splitGo, hc]
      | some x => simp [splitGo, hc]
    rw [h1, h2]

theorem splitGo_gap : ∀ (l : List Char) (p : Option Char),
    splitGo p true [] l = splitGo p false [] (l.dropWhile pyIsSpace) := by
  intro l
  induction l with
  | nil => intro p; rfl
  | cons c rest ih =>
    intro p
    by_cases hc : pyIsSpace c = true
    · have step : splitGo p true [] (c :: rest) = splitGo (some c) true [] rest := by
        simp [splitGo, hc]
      rw [step, ih (some c), List.dropWhile_cons, hc, if_pos rfl]
      exact splitGo_prev_irrelevant _ (some c) p fun x hx => head_dropWhile_false hx
    · have hc' : pyIsSpace c = false := Bool.eq_false_iff.mpr hc
      have step : splitGo p true [] (c :: rest) = splitGo (some c) false [c] rest := by
        simp [splitGo, hc']
      have step2 : splitGo p false [] (c :: rest) = splitGo (some c) false [c] rest := by
        cases p with
        | none => simp [splitGo, hc']
        | some x => simp [splitGo, hc']
      rw [step]
      have hdw : (c :: rest).dropWhile pyIsSpace = c :: rest := by
        simp [List.dropWhile_cons, hc']
      rw [hdw, step2]

theorem glued_splitGo_aux : ∀ (n : Nat) (l : List Char), l.length ≤ n →
    ∀ (prev : Option Char) (cur : List Char),
      (∀ p, prev = some p → isTerminal p = true → ∃ cur2, cur = p :: cur2) →
      Glued (cur.reverse ++ l) (splitGo prev false cur l) := by
  intro n
  induction n with
  | zero =>
    intro l hl prev cur _
    have h0 : l = [] := List.length_eq_zero.mp (Nat.le_zero.mp hl)
    subst h0
    rw [List.append_nil]
    exact Glued.single cur.reverse
  | succ n ih =>
    intro l hl prev cur hinv
    cases l with
    | nil =>
      rw [List.append_nil]
      exact Glued.single cur.reverse
    | cons c rest =>
      have hlen : rest.length ≤ n := Nat.le_of_succ_le_succ hl
      have hassoc : cur.reverse ++ c :: rest = (c :: cur).reverse ++ rest := by simp
      by_cases hc : pyIsSpace c = true
      · have hcT : isTerminal c = false := ws_not_terminal hc
        cases prev with
        | none =>
          have step : splitGo none false cur (c :: rest) =
              splitGo (some c) false (c :: cur) rest := by simp [splitGo, hc]
          rw [step, hassoc]
          refine ih rest hlen (some c) (c :: cur) ?_
          intro p hp hterm
          injection hp with hp2
          rw [← hp2, hcT] at hterm
          cases hterm
        | some q =>
          by_cases hq : isTerminal q = true
          · have step : splitGo (some q) false cur (c :: rest) =
                cur.reverse :: splitGo (some c) true [] rest := by simp [splitGo, hc, hq]
            obtain ⟨cur2, hcur⟩ := hinv q rfl hq
            rw [step, splitGo_gap rest (some c)]
            have hsub : Glued (rest.dropWhile pyIsSpace)
                (splitGo (some c) false [] (rest.dropWhile pyIsSpace)) := by
              have hlen2 : (rest.dropWhile pyIsSpace).length ≤ n :=
                le_trans (length_dropWhile_le pyIsSpace rest) hlen
              have := ih (rest.dropWhile pyIsSpace) hlen2 (some c) [] ?_
              · simpa using this
              · intro p hp hterm
                injection hp with hp2
                rw [← hp2, hcT] at hterm
                cases hterm
            have hlist : cur.reverse ++ c :: rest =
                cur.reverse ++ (c :: rest.takeWhile pyIsSpace) ++ rest.dropWhile pyIsSpace := by
              rw [List.append_assoc]
              have : c :: rest = (c :: rest.takeWhile pyIsSpace) ++ rest.dropWhile pyIsSpace := by
                rw [List.cons_append, List.takeWhile_append_dropWhile]
              rw [← this]
            rw [hlist]
            refine Glued.more cur.reverse (c :: rest.takeWhile pyIsSpace)
              (rest.dropWhile pyIsSpace) _ (by simp) ?_ ?_ hsub
            · intro x hx
              rcases List.mem_cons.mp hx with rfl | hx2
              · exact hc
              · exact List.mem_takeWhile_imp hx2
            · refine ⟨cur2.reverse, q, ?_, hq⟩
              rw [hcur]
              simp
          · have hq' : isTerminal q = false := Bool.eq_false_iff.mpr hq
            have step : splitGo (some q) false cur (c :: rest) =
                splitGo (some c) false (c :: cur) rest := by simp [splitGo, hc, hq']
            rw [step, hassoc]
            refine ih rest hlen (some c) (c :: cur) ?_
            intro p hp hterm
            injection hp with hp2
            rw [← hp2, hcT] at hterm
            cases hterm
      · have hc' : pyIsSpace c = false := Bool.eq_false_iff.mpr hc
        have step : splitGo prev false cur (c :: rest) =
            splitGo (some c) false (c :: cur) rest := by
          cases prev with
          | none => simp [splitGo, hc']
          | some x => simp [splitGo, hc']
        rw [step, hassoc]
        refine ih rest hlen (some c) (c :: cur) ?_
        intro p hp _
        injection hp with hp2
        exact ⟨cur, by rw [hp2]⟩

theorem glued_splitSentences (l : List Char) : Glued l (splitSentences l) := by
  have h := glued_splitGo_aux l.length l (le_refl _) none [] (by intro p hp _; cases hp)
  simpa using h

theorem chain_snoc {cur : List Char} {c : Char} (hchain : List.Chain' SplitOk cur.reverse)
    (hok : ∀ x, cur.head? = some x → SplitOk x c) :
    List.Chain' SplitOk ((c :: cur).reverse) := by
  rw [List.reverse_cons]
  refine List.chain'_append.mpr ⟨hchain, List.chain'_singleton c, ?_⟩
  intro x hx y hy
  rw [List.getLast?_reverse] at hx
  have hy2 : c = y := by simpa using hy
  subst hy2
  exact hok x (by simpa using hx)

theorem chain_splitGo : ∀ (l : List Char) (prev : Option Char) (inGap : Bool) (cur : List Char),
    List.Chain' SplitOk cur.reverse →
    (inGap = false → cur = [] ∨ prev = cur.head?) →
    (inGap = true → cur = []) →
    ∀ p ∈ splitGo prev inGap cur l, List.Chain' SplitOk p := by
  intro l
  induction l with
  | nil =>
    intro prev inGap cur hchain _ _ p hp
    simp only [splitGo, List.mem_singleton] at hp
    subst hp
    exact hchain
  | cons c rest ih =>
    intro prev inGap cur hchain hflag hgap p hp
    by_cases hc : pyIsSpace c = true
    · cases inGap with
      | true =>
        have hcur : cur = [] := hgap rfl
        subst hcur
        rw [show splitGo prev true [] (c :: rest) = splitGo (some c) true [] rest from by
          simp [splitGo, hc]] at hp
        exact ih (some c) true [] List.chain'_nil (fun h0 => Bool.noConfusion h0)
          (fun _ => rfl) p hp
      | false =>
        cases prev with
        | none =>
          rw [show splitGo none false cur (c :: rest) =
              splitGo (some c) false (c :: cur) rest from by simp [splitGo, hc]] at hp
          refine ih (some c) false (c :: cur) ?_ (fun _ => Or.inr rfl)
            (fun h0 => Bool.noConfusion h0) p hp
          refine chain_snoc hchain ?_
          intro x hx
          rcases hflag rfl with hcur0 | hprev
          · rw [hcur0] at hx
            cases hx
          · rw [← hprev] at hx
            cases hx
        | some q =>
          by_cases hq : isTerminal q = true
          · rw [show splitGo (some q) false cur (c :: rest) =
                cur.reverse :: splitGo (some c) true [] rest from by
              simp [splitGo, hc, hq]] at hp
            rcases List.mem_cons.mp hp with rfl | hp2
            · exact hchain
            · exact ih (some c) true [] List.chain'_nil (fun h0 => Bool.noConfusion h0)
                (fun _ => rfl) p hp2
          · have hq' : isTerminal q = false := Bool.eq_false_iff.mpr hq
            rw [show splitGo (some q) false cur (c :: rest) =
                splitGo (some c) false (c :: cur) rest from by simp [splitGo, hc, hq']] at hp
            refine ih (some c) false (c :: cur) ?_ (fun _ => Or.inr rfl)
              (fun h0 => Bool.noConfusion h0) p hp
            refine chain_snoc hchain ?_
            intro x hx
            rcases hflag rfl with hcur0 | hprev
            · rw [hcur0] at hx
              cases hx
            · have hxq : x = q := by
                rw [← hprev] at hx
                injection hx with h2
                exact h2.symm
              subst hxq
              intro hterm
              exact absurd hterm hq
    · have hc' : pyIsSpace c = false := Bool.eq_false_iff.mpr hc
      rw [show splitGo prev inGap cur (c :: rest) =
          splitGo (some c) false (c :: cur) rest from by simp [splitGo, hc']] at hp
      refine ih (some c) false (c :: cur) ?_ (fun _ => Or.inr rfl)
        (fun h0 => Bool.noConfusion h0) p hp
      exact chain_snoc hchain fun x _ _ => hc'

theorem chain_splitSentences (l : List Char) :
    ∀ p ∈ splitSentences l, List.Chain' SplitOk p :=
  chain_splitGo l none false [] List.chain'_nil (fun _ => Or.inl rfl)
    (fun h0 => Bool.noConfusion h0)

/-- Claim C5: the joiner splits its text exactly at points where a
terminal punctuation mark is immediately followed by whitespace, with
the punctuation staying attached as the last character of the preceding
candidate (the Glued relation: the candidates reconstruct the text
around nonempty all-whitespace gaps, each preceded by a terminal mark,
and no candidate contains an internal terminal-then-whitespace pair);
each candidate is trimmed, empty candidates are dropped, and the
survivors are joined with the caller's separator in their original
order with no reordering, deduplication or empty elements; finally the
concrete example yields the three sentences on three lines. -/
theorem C5_joiner_splits_trims_joins :
    restore_separators "Foo. Bar! Baz?".toList "\n".toList = "Foo.\nBar!\nBaz?".toList ∧
      (∀ text sep : List Char, restore_separators text sep = sepJoin sep (finalSentences text)) ∧
      (∀ text : List Char, ∀ s ∈ finalSentences text, s ≠ [] ∧ strip s = s) ∧
      (∀ l : List Char, Glued l (splitSentences l)) ∧
      (∀ l : List Char, ∀ p ∈ splitSentences l, List.Chain' SplitOk p) := by
  refine ⟨by decide, fun text sep => rfl, ?_, glued_splitSentences, chain_splitSentences⟩
  intro text s hs
  obtain ⟨hne, s0, hs0⟩ := mem_finalSentences hs
  refine ⟨hne, ?_⟩
  rw [hs0, strip_idem]

/-- Witness for C5: the first candidate of the concrete example is
nonempty and already trimmed. -/
theorem C5_joiner_splits_trims_joins_witness :
    "Foo.".toList ≠ [] ∧ strip "Foo.".toList = "Foo.".toList :=
  C5_joiner_splits_trims_joins.2.2.1 "Foo. Bar! Baz?".toList "Foo.".toList (by decide)

example : heuristic_insert_linebreaks "wordXy".toList = "word\nXy".toList := by decide
example : heuristic_insert_linebreaks "worldWAR".toList = "worldWAR".toList := by decide
example : heuristic_insert_linebreaks "(A) test".toList = "(A) test".toList := by decide
example : restore_separators "Foo. Bar! Baz?".toList "\n".toList = "Foo.\nBar!\nBaz?".toList := by
  decide
example : restore_separators "aXy".toList ",".toList = "a\nXy".toList := by decide
example : restore_separators "".toList "\n".toList = "".toList := by decide
example : restore_separators "a. b".toList ";".toList = "a.;b".toList := by decide
